import Mathlib

/-!
Shallow embedding of the client-side event filter/sort/group/paginate
pipeline of `src/features/events/events-view.tsx` (component `EventsView`),
together with proofs of the specified properties.

Modelling conventions:
* A JavaScript timestamp (`new Date(s).getTime()`) is modelled by a parse
  function `p : String → Option Int`; `none` stands for an invalid date
  (`NaN` time value).  `now = new Date()` is a plain `Int`.
* `date-fns` primitives over parsed dates:
  - `isAfter(a, b)`  is `getTime a > getTime b` (false when either is `NaN`),
  - `isBefore(a, b)` is `getTime a < getTime b` (false when either is `NaN`),
  - `isToday(d)`     compares the local calendar day of `d` with that of now;
    the local-calendar-day function `format(d, "yyyy-MM-dd")` is modelled by
    an abstract `day : Int → String`, and `format` throws a `RangeError` on
    an invalid date, which the embedding surfaces as `Except.error`.
* `String.prototype.toLowerCase` is modelled by `String.toLower`,
  `String.prototype.includes` by an explicit substring scan, and
  `String.prototype.localeCompare` by an abstract comparator
  `nameCmp : String → String → Int`.
* `Array.prototype.sort(cmp)` is a stable sort placing `a` no later than `b`
  when `cmp a b ≤ 0`; it is modelled by insertion sort (`jsSort`).
* A JavaScript record with string keys (`Record<string, EventPrimitives[]>`,
  keys of the form yyyy-MM-dd, hence not array indices) preserves insertion
  order of first key encounter; it is modelled by an association list.
-/

/-- Price of an event: `price.amount` and `price.currency`. -/
structure Price where
  amount : Int
  currency : String
deriving DecidableEq, Repr

/-- Time window of an event, ISO timestamp strings as delivered by the API. -/
structure Duration where
  startAt : String
  endAt : String
deriving DecidableEq, Repr

/-- The event record used by the events view (fields the pipeline reads). -/
structure EventPrimitives where
  id : String
  name : String
  description : String
  location : String
  duration : Duration
  price : Price
deriving DecidableEq, Repr

/-- The `dateRange` state `{ from: Date | null, to: Date | null }`; `from` is a
Lean keyword, so the fields are named `fromDate` / `toDate`. -/
structure DateRange where
  fromDate : Option Int
  toDate : Option Int
deriving DecidableEq, Repr

/-! ### JavaScript string primitives -/

/-- `startsWithL ns hs`: the char list `hs` starts with `ns`. -/
def startsWithL : List Char → List Char → Bool
  | [], _ => true
  | _ :: _, [] => false
  | n :: ns, h :: hs => n == h && startsWithL ns hs

/-- `subOf ns hs`: `ns` occurs as a contiguous run inside `hs`. -/
def subOf (ns : List Char) : List Char → Bool
  | [] => startsWithL ns []
  | h :: hs => startsWithL ns (h :: hs) || subOf ns hs

/-- `hay.includes(needle)` of JavaScript. -/
def strIncludes (hay needle : String) : Bool :=
  subOf needle.toList hay.toList

/-- `s.toLowerCase()`, character-wise lowercasing (ASCII-faithful). -/
def jsToLower (s : String) : String :=
  String.mk (s.toList.map Char.toLower)

/-- `s.trim()`: strip leading and trailing whitespace. -/
def jsTrim (s : String) : String :=
  String.mk
    (((s.toList.dropWhile Char.isWhitespace).reverse.dropWhile
      Char.isWhitespace).reverse)

/-! ### date-fns primitives over parsed timestamps -/

/-- `isAfter(new Date(s), t)`: the parsed time of `s` is strictly greater
than `t`; false when `s` does not parse. -/
def isAfterParsed (p : String → Option Int) (s : String) (t : Int) : Bool :=
  match p s with
  | some x => decide (t < x)
  | none => false

/-- `isBefore(new Date(s), t)`: the parsed time of `s` is strictly smaller
than `t`; false when `s` does not parse. -/
def isBeforeParsed (p : String → Option Int) (s : String) (t : Int) : Bool :=
  match p s with
  | some x => decide (x < t)
  | none => false

/-- `isToday(new Date(s))`: the parsed time of `s` falls on the same local
calendar day as `now`; false when `s` does not parse. -/
def isTodayParsed (p : String → Option Int) (day : Int → String)
    (s : String) (now : Int) : Bool :=
  match p s with
  | some x => day x == day now
  | none => false

/-! ### `Array.prototype.sort` as a stable comparator sort -/

/-- Insert `x` in front of the first element `y` with `cmp x y ≤ 0`; an
element equal to `x` under `cmp` therefore stays in front of `x` only if it
was already in the list, which gives stability. -/
def insertLE {α : Type} (cmp : α → α → Int) (x : α) : List α → List α
  | [] => [x]
  | y :: ys => if cmp x y ≤ 0 then x :: y :: ys else y :: insertLE cmp x ys

/-- Stable sort modelling `Array.prototype.sort(cmp)` (ES2019 sorts are
stable; for a consistent comparator the result is ordered by `cmp · · ≤ 0`). -/
def jsSort {α : Type} (cmp : α → α → Int) : List α → List α
  | [] => []
  | x :: xs => insertLE cmp x (jsSort cmp xs)

theorem insertLE_perm {α : Type} (cmp : α → α → Int) (x : α) (l : List α) :
    (insertLE cmp x l).Perm (x :: l) := by
  induction l with
  | nil => simp [insertLE]
  | cons y ys ih =>
    by_cases h : cmp x y ≤ 0
    · simp [insertLE, h]
    · simp only [insertLE, if_neg h]
      exact (ih.cons y).trans (List.Perm.swap x y ys)

theorem jsSort_perm {α : Type} (cmp : α → α → Int) (l : List α) :
    (jsSort cmp l).Perm l := by
  induction l with
  | nil => simp [jsSort]
  | cons x xs ih =>
    exact (insertLE_perm cmp x (jsSort cmp xs)).trans (ih.cons x)

theorem insertLE_mem {α : Type} {cmp : α → α → Int} {x z : α} {l : List α} :
    z ∈ insertLE cmp x l ↔ z = x ∨ z ∈ l := by
  have h := (insertLE_perm cmp x l).mem_iff (a := z)
  simpa using h

theorem jsSort_mem {α : Type} {cmp : α → α → Int} {z : α} {l : List α} :
    z ∈ jsSort cmp l ↔ z ∈ l :=
  (jsSort_perm cmp l).mem_iff

theorem insertLE_pairwise {α : Type} {cmp : α → α → Int} {x : α} {l : List α}
    (htot : ∀ a ∈ x :: l, ∀ b ∈ x :: l, cmp a b ≤ 0 ∨ cmp b a ≤ 0)
    (htr : ∀ a ∈ x :: l, ∀ b ∈ x :: l, ∀ c ∈ x :: l,
      cmp a b ≤ 0 → cmp b c ≤ 0 → cmp a c ≤ 0)
    (hl : l.Pairwise (fun a b => cmp a b ≤ 0)) :
    (insertLE cmp x l).Pairwise (fun a b => cmp a b ≤ 0) := by
  induction l with
  | nil => simp [insertLE]
  | cons y ys ih =>
    rcases List.pairwise_cons.mp hl with ⟨hy, hys⟩
    by_cases h : cmp x y ≤ 0
    · simp only [insertLE, if_pos h]
      refine List.Pairwise.cons ?_ hl
      intro z hz
      rcases List.mem_cons.mp hz with rfl | hz
      · exact h
      · exact htr x (.head _) y (.tail _ (.head _))
          z (.tail _ (.tail _ hz)) h (hy z hz)
    · simp only [insertLE, if_neg h]
      have hyx : cmp y x ≤ 0 := by
        rcases htot x (.head _) y (.tail _ (.head _)) with h1 | h2
        · exact absurd h1 h
        · exact h2
      have hsub : ∀ a ∈ x :: ys, a ∈ x :: y :: ys := by
        intro a ha
        rcases List.mem_cons.mp ha with rfl | ha
        · exact .head _
        · exact .tail _ (.tail _ ha)
      refine List.Pairwise.cons ?_ (ih
        (fun a ha b hb => htot a (hsub a ha) b (hsub b hb))
        (fun a ha b hb c hc => htr a (hsub a ha) b (hsub b hb) c (hsub c hc))
        hys)
      intro z hz
      rcases insertLE_mem.mp hz with rfl | hz
      · exact hyx
      · exact hy z hz

theorem jsSort_pairwise {α : Type} {cmp : α → α → Int} {l : List α}
    (htot : ∀ a ∈ l, ∀ b ∈ l, cmp a b ≤ 0 ∨ cmp b a ≤ 0)
    (htr : ∀ a ∈ l, ∀ b ∈ l, ∀ c ∈ l,
      cmp a b ≤ 0 → cmp b c ≤ 0 → cmp a c ≤ 0) :
    (jsSort cmp l).Pairwise (fun a b => cmp a b ≤ 0) := by
  induction l with
  | nil => simp [jsSort]
  | cons x xs ih =>
    have hsub : ∀ a ∈ x :: jsSort cmp xs, a ∈ x :: xs := by
      intro a ha
      rcases List.mem_cons.mp ha with rfl | ha
      · exact .head _
      · exact .tail _ (jsSort_mem.mp ha)
    exact insertLE_pairwise
      (fun a ha b hb => htot a (hsub a ha) b (hsub b hb))
      (fun a ha b hb c hc => htr a (hsub a ha) b (hsub b hb) c (hsub c hc))
      (ih (fun a ha b hb => htot a (.tail _ ha) b (.tail _ hb))
        (fun a ha b hb c hc => htr a (.tail _ ha) b (.tail _ hb) c (.tail _ hc)))

theorem insertLE_sublist {α : Type} {cmp : α → α → Int} {x : α}
    {c m : List α} (h : c.Sublist m) : c.Sublist (insertLE cmp x m) := by
  induction m generalizing c with
  | nil =>
    cases h
    simp [insertLE]
  | cons y ys ih =>
    by_cases hxy : cmp x y ≤ 0
    · simpa [insertLE, hxy] using h.trans (List.sublist_cons_self x (y :: ys))
    · simp only [insertLE, if_neg hxy]
      cases h with
      | cons _ h' => exact (ih h').cons y
      | cons₂ _ h' => exact (ih h').cons₂ y

theorem insertLE_pair_head {α : Type} {cmp : α → α → Int} {a b : α}
    {m : List α} (hb : b ∈ m) (hab : cmp a b ≤ 0) :
    [a, b].Sublist (insertLE cmp a m) := by
  induction m with
  | nil => cases hb
  | cons y ys ih =>
    by_cases hay : cmp a y ≤ 0
    · simpa [insertLE, hay] using List.singleton_sublist.mpr hb
    · simp only [insertLE, if_neg hay]
      rcases List.mem_cons.mp hb with rfl | hb
      · exact absurd hab hay
      · exact (ih hb).cons y

/-- Stability of `jsSort`: a pair of elements the comparator does not order
strictly the other way keeps its relative order. -/
theorem jsSort_stable_pair {α : Type} {cmp : α → α → Int} {a b : α}
    {l : List α} (h : [a, b].Sublist l) (hab : cmp a b ≤ 0) :
    [a, b].Sublist (jsSort cmp l) := by
  induction l with
  | nil => cases h
  | cons x xs ih =>
    cases h with
    | cons _ h' => exact insertLE_sublist (ih h')
    | cons₂ _ h' =>
      exact insertLE_pair_head (jsSort_mem.mpr (List.singleton_sublist.mp h')) hab

/-! ### The filter stage of `filteredEvents` -/

/-- One event passes the search filter: the lowercased query occurs in the
lowercased name, description or location (the code lowercases `searchQuery`
once into `query` and calls `includes` on each lowercased field). -/
def matchesSearch (query : String) (e : EventPrimitives) : Bool :=
  strIncludes (jsToLower e.name) (jsToLower query) ||
  strIncludes (jsToLower e.description) (jsToLower query) ||
  strIncludes (jsToLower e.location) (jsToLower query)

/-- The `if (searchQuery) \x7b filtered = filtered.filter(...) \x7d` block: an
empty search string is falsy and leaves the collection untouched. -/
def applySearch (query : String) (l : List EventPrimitives) :
    List EventPrimitives :=
  if query = "" then l else l.filter (matchesSearch query)

/-- The status-filter block: `upcoming` keeps `isAfter(startAt, now)`,
`past` keeps `isBefore(endAt, now)`, `today` keeps `isToday(startAt)`, and
any other value (in particular `all`) leaves the collection untouched. -/
def applyStatus (p : String → Option Int) (day : Int → String) (now : Int)
    (filterStatus : String) (l : List EventPrimitives) :
    List EventPrimitives :=
  if filterStatus = "upcoming" then
    l.filter (fun e => isAfterParsed p e.duration.startAt now)
  else if filterStatus = "past" then
    l.filter (fun e => isBeforeParsed p e.duration.endAt now)
  else if filterStatus = "today" then
    l.filter (fun e => isTodayParsed p day e.duration.startAt now)
  else l

/-- The date-range block: a set `from` bound keeps `isAfter(startAt, from)`,
then a set `to` bound keeps `isBefore(startAt, to)`. -/
def applyRange (p : String → Option Int) (range : DateRange)
    (l : List EventPrimitives) : List EventPrimitives :=
  let l1 := match range.fromDate with
    | some lo => l.filter (fun e => isAfterParsed p e.duration.startAt lo)
    | none => l
  match range.toDate with
  | some hi => l1.filter (fun e => isBeforeParsed p e.duration.startAt hi)
  | none => l1

/-- The filter part of the `filteredEvents` memo, before sorting:
`if (!events) return []`, then search, status and date-range filters in
the order the code applies them. -/
def filteredNoSort (p : String → Option Int) (day : Int → String) (now : Int)
    (searchQuery : String) (filterStatus : String) (range : DateRange)
    (events : Option (List EventPrimitives)) : List EventPrimitives :=
  match events with
  | none => []
  | some evs =>
    applyRange p range (applyStatus p day now filterStatus
      (applySearch searchQuery evs))

/-! ### The sort stage of `filteredEvents` -/

/-- The `date-asc` comparator
`new Date(a.startAt).getTime() - new Date(b.startAt).getTime()`; when either
date is invalid the subtraction is `NaN`, which `Array.prototype.sort`
treats as `+0`. -/
def cmpDate (p : String → Option Int) (a b : EventPrimitives) : Int :=
  match p a.duration.startAt, p b.duration.startAt with
  | some x, some y => x - y
  | _, _ => 0

/-- The comparator of the `filtered.sort((a, b) => ...)` call, by `sortBy`;
the `default` branch returns 0. -/
def comparator (p : String → Option Int) (nameCmp : String → String → Int)
    (sortBy : String) (a b : EventPrimitives) : Int :=
  if sortBy = "date-asc" then cmpDate p a b
  else if sortBy = "date-desc" then cmpDate p b a
  else if sortBy = "name-asc" then nameCmp a.name b.name
  else if sortBy = "name-desc" then nameCmp b.name a.name
  else if sortBy = "price-asc" then a.price.amount - b.price.amount
  else if sortBy = "price-desc" then b.price.amount - a.price.amount
  else 0

/-- The whole `filteredEvents` memo: filter, then stable sort of the working
copy. -/
def filteredEvents (p : String → Option Int) (day : Int → String)
    (nameCmp : String → String → Int) (now : Int) (searchQuery : String)
    (filterStatus : String) (range : DateRange) (sortBy : String)
    (events : Option (List EventPrimitives)) : List EventPrimitives :=
  jsSort (comparator p nameCmp sortBy)
    (filteredNoSort p day now searchQuery filterStatus range events)

/-! ### The group stage (`groupedEvents` memo) -/

/-- `groups[date] = groups[date] ?? []; groups[date].push(event)` on an
association list: push onto the existing bucket of `k`, or append a new
`(k, [e])` entry at the end (JavaScript string-keyed records enumerate in
insertion order of first encounter). -/
def groupInsert (k : String) (e : EventPrimitives)
    (groups : List (String × List EventPrimitives)) :
    List (String × List EventPrimitives) :=
  match groups with
  | [] => [(k, [e])]
  | (k2, es) :: rest =>
    if k2 = k then (k2, es ++ [e]) :: rest else (k2, es) :: groupInsert k e rest

/-- The body of the `filteredEvents.forEach` loop of the `groupedEvents`
memo, run sequentially over the collection with the accumulated `groups`:
each event is bucketed under
`format(new Date(event.duration.startAt), "yyyy-MM-dd")`, and `format`
throws `RangeError: Invalid time value` on an invalid date, which is
surfaced as `Except.error` and aborts the loop. -/
def groupFold (p : String → Option Int) (day : Int → String)
    (acc : List (String × List EventPrimitives)) :
    List EventPrimitives →
    Except String (List (String × List EventPrimitives))
  | [] => Except.ok acc
  | e :: l =>
    match p e.duration.startAt with
    | none => Except.error "Invalid time value"
    | some t => groupFold p day (groupInsert (day t) e acc) l

/-- The `groupedEvents` memo: start from the empty record (also returned
directly by the `if (!filteredEvents.length)` guard) and run the forEach
loop. -/
def groupedEvents (p : String → Option Int) (day : Int → String)
    (l : List EventPrimitives) :
    Except String (List (String × List EventPrimitives)) :=
  groupFold p day [] l

/-- The grouping key of one event: `format` of its parsed `startAt`. -/
def dayKey (p : String → Option Int) (day : Int → String)
    (e : EventPrimitives) : Option String :=
  (p e.duration.startAt).map day

/-! ### The paginate stage -/

/-- Lexicographic strict comparison of char lists (the order JavaScript
uses when `Array.prototype.sort()` compares strings). -/
def ltCharList : List Char → List Char → Bool
  | [], [] => false
  | [], _ :: _ => true
  | _ :: _, [] => false
  | a :: as, b :: bs =>
    if a < b then true else if b < a then false else ltCharList as bs

/-- `a < b` on JavaScript strings. -/
def strLt (a b : String) : Bool :=
  ltCharList a.toList b.toList

/-- The comparator of the default `Array.prototype.sort()` on strings:
lexicographic comparison of the two strings. -/
def strCmp (a b : String) : Int :=
  if strLt a b then -1 else if a = b then 0 else 1

/-- `Object.keys(groupedEvents).sort()`. -/
def sortedKeys (g : List (String × List EventPrimitives)) : List String :=
  jsSort strCmp (g.map Prod.fst)

/-- `eventsPerPage` constant. -/
def eventsPerPage : Nat := 10

/-- `dates.slice((currentPage - 1) * eventsPerPage, currentPage * eventsPerPage)`
for a 1-based page number. -/
def pageKeys (g : List (String × List EventPrimitives)) (page : Nat) :
    List String :=
  ((sortedKeys g).drop ((page - 1) * eventsPerPage)).take eventsPerPage

/-- The `paginatedGroupedEvents` memo: the grouping restricted to the
day-keys of the requested page (`paginatedGroups[date] = groupedEvents[date]`). -/
def paginatedGroupedEvents (g : List (String × List EventPrimitives))
    (page : Nat) : List (String × List EventPrimitives) :=
  (pageKeys g page).map (fun k => (k, ((g.lookup k).getD [])))

/-- The `totalPages` memo: `Math.ceil(Object.keys(groupedEvents).length /
eventsPerPage)`. -/
def totalPages (g : List (String × List EventPrimitives)) : Nat :=
  (g.length + (eventsPerPage - 1)) / eventsPerPage

/-! ### The derived counters -/

/-- The `totalUpcomingEvents` memo: events with `startAt` strictly after
now, counted on the unfiltered collection. -/
def totalUpcomingEvents (p : String → Option Int) (now : Int)
    (events : Option (List EventPrimitives)) : Nat :=
  match events with
  | none => 0
  | some evs =>
    (evs.filter (fun e => isAfterParsed p e.duration.startAt now)).length

/-- The `todayEvents` memo: events whose `startAt` falls on the current
local calendar day, counted on the unfiltered collection. -/
def todayEvents (p : String → Option Int) (day : Int → String) (now : Int)
    (events : Option (List EventPrimitives)) : Nat :=
  match events with
  | none => 0
  | some evs =>
    (evs.filter (fun e => isTodayParsed p day e.duration.startAt now)).length

/-! ### Semantic characterizations of the date predicates -/

theorem isAfterParsed_iff {p : String → Option Int} {s : String} {t : Int} :
    isAfterParsed p s t = true ↔ ∃ x, p s = some x ∧ t < x := by
  unfold isAfterParsed
  cases h : p s <;> simp [h]

theorem isBeforeParsed_iff {p : String → Option Int} {s : String} {t : Int} :
    isBeforeParsed p s t = true ↔ ∃ x, p s = some x ∧ x < t := by
  unfold isBeforeParsed
  cases h : p s <;> simp [h]

theorem isTodayParsed_iff {p : String → Option Int} {day : Int → String}
    {s : String} {now : Int} :
    isTodayParsed p day s now = true ↔ ∃ x, p s = some x ∧ day x = day now := by
  unfold isTodayParsed
  cases h : p s <;> simp [h]

/-! ### Claim theorems -/

/-- C1: the status filter keeps exactly the events selected by the chosen
status: `upcoming` keeps an event iff its startAt is strictly after now,
`past` iff its endAt is strictly before now, `today` iff its startAt falls
on the current local calendar day, and `all` keeps every event. -/
theorem status_filter_correct (p : String → Option Int) (day : Int → String)
    (now : Int) (l : List EventPrimitives) (e : EventPrimitives) :
    (e ∈ applyStatus p day now "upcoming" l ↔
      e ∈ l ∧ ∃ t, p e.duration.startAt = some t ∧ now < t) ∧
    (e ∈ applyStatus p day now "past" l ↔
      e ∈ l ∧ ∃ t, p e.duration.endAt = some t ∧ t < now) ∧
    (e ∈ applyStatus p day now "today" l ↔
      e ∈ l ∧ ∃ t, p e.duration.startAt = some t ∧ day t = day now) ∧
    applyStatus p day now "all" l = l := by
  refine ⟨?_, ?_, ?_, ?_⟩
  · simp [applyStatus, List.mem_filter, isAfterParsed_iff]
  · simp [applyStatus, List.mem_filter, isBeforeParsed_iff]
  · simp [applyStatus, List.mem_filter, isTodayParsed_iff]
  · simp [applyStatus]

/-- C10: with the default selection state (status upcoming, empty search,
no date range) and the same instant now, the filter stage output has the
same length as the upcoming counter computed on the unfiltered collection;
under status today it matches the today counter. -/
theorem counters_match_filter (p : String → Option Int) (day : Int → String)
    (nameCmp : String → String → Int) (now : Int) (sortBy : String)
    (events : Option (List EventPrimitives)) :
    (filteredEvents p day nameCmp now "" "upcoming" ⟨none, none⟩ sortBy
        events).length = totalUpcomingEvents p now events ∧
    (filteredEvents p day nameCmp now "" "today" ⟨none, none⟩ sortBy
        events).length = todayEvents p day now events := by
  constructor
  · cases events with
    | none => simp [filteredEvents, filteredNoSort, jsSort, totalUpcomingEvents]
    | some evs =>
      rw [filteredEvents,
        (jsSort_perm (comparator p nameCmp sortBy) _).length_eq]
      simp [filteredNoSort, applySearch, applyStatus, applyRange,
        totalUpcomingEvents]
  · cases events with
    | none => simp [filteredEvents, filteredNoSort, jsSort, todayEvents]
    | some evs =>
      rw [filteredEvents,
        (jsSort_perm (comparator p nameCmp sortBy) _).length_eq]
      simp [filteredNoSort, applySearch, applyStatus, applyRange, todayEvents]

/-! ### Concrete fixtures used by witnesses and counterexamples -/

/-- Concrete parse function for witnesses (timestamps 100, 200, 300 parse,
everything else is an invalid date). -/
def pW : String → Option Int := fun s =>
  if s = "100" then some 100
  else if s = "200" then some 200
  else if s = "300" then some 300
  else none

/-- Concrete local-calendar-day function for witnesses. -/
def dayW : Int → String := fun t =>
  if t ≤ 150 then "2024-03-07" else "2024-03-08"

/-- Event fixture named like the spec example. -/
def evYoga : EventPrimitives :=
  { id := "e1", name := "Clase de Yoga", description := "Estiramiento"
    location := "Sala 1"
    duration := { startAt := "100", endAt := "200" }
    price := { amount := 100, currency := "MXN" } }

/-- Search predicate worded as the claim states it: the search text,
trimmed and case-folded, is a substring of the case-folded name,
description or location.  (The code does not trim; this definition exists
to compare the claim against the code.) -/
def claimMatchesSearch (query : String) (e : EventPrimitives) : Bool :=
  strIncludes (jsToLower e.name) (jsToLower (jsTrim query)) ||
  strIncludes (jsToLower e.description) (jsToLower (jsTrim query)) ||
  strIncludes (jsToLower e.location) (jsToLower (jsTrim query))

/-- C2 counterexample: with search text "yoga " (trailing space) the code
drops the event named "Clase de Yoga" (no trimming happens before the
substring test), while the trimmed predicate stated by the claim keeps
it. -/
theorem search_filter_trim_cex :
    applySearch "yoga " [evYoga] = [] ∧
    claimMatchesSearch "yoga " evYoga = true ∧
    jsTrim "yoga " = "yoga" := by
  refine ⟨by decide, by decide, by decide⟩

/-- C2 (amended): an event passes the search filter iff the search text,
case-folded but NOT trimmed, is a substring of the case-folded name,
description or location; an empty search string keeps every event. -/
theorem search_filter_correct (query : String) (l : List EventPrimitives)
    (e : EventPrimitives) :
    (query = "" → applySearch query l = l) ∧
    (e ∈ applySearch query l ↔ e ∈ l ∧ (query = "" ∨
      strIncludes (jsToLower e.name) (jsToLower query) = true ∨
      strIncludes (jsToLower e.description) (jsToLower query) = true ∨
      strIncludes (jsToLower e.location) (jsToLower query) = true)) := by
  constructor
  · intro h
    simp [applySearch, h]
  · by_cases h : query = ""
    · simp [applySearch, h]
    · simp [applySearch, h, List.mem_filter, matchesSearch, or_assoc]

/-- C2 witness: the amended theorem applied at a concrete input. -/
theorem search_filter_correct_witness :
    applySearch "" [evYoga] = [evYoga] :=
  (search_filter_correct "" [evYoga] evYoga).1 rfl

/-- Fixture: event priced 100. -/
def ev100 : EventPrimitives :=
  { id := "e100", name := "Beta", description := "d", location := "x"
    duration := { startAt := "100", endAt := "200" }
    price := { amount := 100, currency := "MXN" } }

/-- Fixture: event priced 50. -/
def ev50 : EventPrimitives :=
  { id := "e50", name := "Alfa", description := "d", location := "x"
    duration := { startAt := "100", endAt := "200" }
    price := { amount := 50, currency := "MXN" } }

/-- C3: the sort stage permutes the filtered collection; it is stable (a
pair with equal comparator keys keeps its filter-stage order); whenever the
chosen comparator is total and transitive on the filtered collection the
result is ordered by it; and under price-desc two events priced 100 and 50
come out as the 100 event first, regardless of names. -/
theorem sort_stage_correct (p : String → Option Int) (day : Int → String)
    (nameCmp : String → String → Int) (now : Int)
    (searchQuery filterStatus : String) (range : DateRange) (sortBy : String)
    (events : Option (List EventPrimitives)) :
    (filteredEvents p day nameCmp now searchQuery filterStatus range sortBy
        events).Perm
      (filteredNoSort p day now searchQuery filterStatus range events) ∧
    (∀ a b : EventPrimitives,
      [a, b].Sublist (filteredNoSort p day now searchQuery filterStatus range
        events) →
      comparator p nameCmp sortBy a b = 0 →
      [a, b].Sublist (filteredEvents p day nameCmp now searchQuery
        filterStatus range sortBy events)) ∧
    ((∀ a ∈ filteredNoSort p day now searchQuery filterStatus range events,
        ∀ b ∈ filteredNoSort p day now searchQuery filterStatus range events,
        comparator p nameCmp sortBy a b ≤ 0 ∨
        comparator p nameCmp sortBy b a ≤ 0) →
     (∀ a ∈ filteredNoSort p day now searchQuery filterStatus range events,
        ∀ b ∈ filteredNoSort p day now searchQuery filterStatus range events,
        ∀ c ∈ filteredNoSort p day now searchQuery filterStatus range events,
        comparator p nameCmp sortBy a b ≤ 0 →
        comparator p nameCmp sortBy b c ≤ 0 →
        comparator p nameCmp sortBy a c ≤ 0) →
     (filteredEvents p day nameCmp now searchQuery filterStatus range sortBy
        events).Pairwise
       (fun a b => comparator p nameCmp sortBy a b ≤ 0)) ∧
    (∀ e1 e2 : EventPrimitives,
      e1.price.amount = 100 → e2.price.amount = 50 →
      jsSort (comparator p nameCmp "price-desc") [e1, e2] = [e1, e2] ∧
      jsSort (comparator p nameCmp "price-desc") [e2, e1] = [e1, e2]) := by
  refine ⟨jsSort_perm _ _, ?_, ?_, ?_⟩
  · intro a b hsub h0
    exact jsSort_stable_pair hsub (le_of_eq h0)
  · intro htot htr
    exact jsSort_pairwise htot htr
  · intro e1 e2 h1 h2
    constructor <;>
      · simp [jsSort, insertLE, comparator, cmpDate, h1, h2]

/-- C3 witness: the theorem applied to the concrete events priced 50 and
100 under price-desc, with the totality and transitivity side conditions
discharged by evaluation. -/
theorem sort_stage_correct_witness :
    jsSort (comparator pW strCmp "price-desc") [ev50, ev100]
      = [ev100, ev50] ∧
    (filteredEvents pW dayW strCmp 0 "" "all" ⟨none, none⟩ "price-desc"
      (some [ev50, ev100])).Pairwise
      (fun a b => comparator pW strCmp "price-desc" a b ≤ 0) := by
  have h := sort_stage_correct pW dayW strCmp 0 "" "all" ⟨none, none⟩
    "price-desc" (some [ev50, ev100])
  exact ⟨(h.2.2.2 ev100 ev50 rfl rfl).2, h.2.2.1 (by decide) (by decide)⟩

/-! ### AND-characterization of the filter stage -/

/-- The search predicate including the `if (searchQuery)` truthiness guard:
an empty query passes everything. -/
def searchPass (query : String) (e : EventPrimitives) : Bool :=
  query == "" || matchesSearch query e

/-- The status predicate including the fall-through for `all` (or any other
status value): only the three recognized statuses filter. -/
def statusPass (p : String → Option Int) (day : Int → String) (now : Int)
    (filterStatus : String) (e : EventPrimitives) : Bool :=
  if filterStatus = "upcoming" then isAfterParsed p e.duration.startAt now
  else if filterStatus = "past" then isBeforeParsed p e.duration.endAt now
  else if filterStatus = "today" then isTodayParsed p day e.duration.startAt now
  else true

/-- The date-range predicate: each bound filters only when set (AND of the
two optional bounds). -/
def rangePass (p : String → Option Int) (range : DateRange)
    (e : EventPrimitives) : Bool :=
  (match range.fromDate with
    | some lo => isAfterParsed p e.duration.startAt lo
    | none => true) &&
  (match range.toDate with
    | some hi => isBeforeParsed p e.duration.startAt hi
    | none => true)

theorem mem_applySearch {query : String} {l : List EventPrimitives}
    {e : EventPrimitives} :
    e ∈ applySearch query l ↔ e ∈ l ∧ searchPass query e = true := by
  by_cases h : query = "" <;>
    simp [applySearch, searchPass, h, List.mem_filter]

theorem mem_applyStatus {p : String → Option Int} {day : Int → String}
    {now : Int} {filterStatus : String} {l : List EventPrimitives}
    {e : EventPrimitives} :
    e ∈ applyStatus p day now filterStatus l ↔
      e ∈ l ∧ statusPass p day now filterStatus e = true := by
  unfold applyStatus statusPass
  split_ifs <;> simp [List.mem_filter]

theorem mem_applyRange {p : String → Option Int} {range : DateRange}
    {l : List EventPrimitives} {e : EventPrimitives} :
    e ∈ applyRange p range l ↔ e ∈ l ∧ rangePass p range e = true := by
  rcases range with ⟨rf, rt⟩
  cases rf <;> cases rt <;>
    simp [applyRange, rangePass, List.mem_filter, and_assoc, and_comm,
      and_left_comm]

/-- C7: a set lower bound keeps exactly the events with startAt strictly
after it, a set upper bound exactly those with startAt strictly before it;
the bounds are independently optional and combine by AND with each other
and with the search and status predicates; an empty or undefined source
collection yields an empty filtered result. -/
theorem range_filter_correct (p : String → Option Int) (day : Int → String)
    (nameCmp : String → String → Int) (now : Int)
    (searchQuery filterStatus sortBy : String) (range : DateRange)
    (l evs : List EventPrimitives) (e : EventPrimitives) :
    (e ∈ applyRange p range l ↔ e ∈ l ∧
      (∀ lo, range.fromDate = some lo →
        ∃ t, p e.duration.startAt = some t ∧ lo < t) ∧
      (∀ hi, range.toDate = some hi →
        ∃ t, p e.duration.startAt = some t ∧ t < hi)) ∧
    (e ∈ filteredNoSort p day now searchQuery filterStatus range (some evs) ↔
      e ∈ evs ∧ searchPass searchQuery e = true ∧
      statusPass p day now filterStatus e = true ∧
      rangePass p range e = true) ∧
    filteredNoSort p day now searchQuery filterStatus range none = [] ∧
    filteredEvents p day nameCmp now searchQuery filterStatus range sortBy
      none = [] ∧
    filteredNoSort p day now searchQuery filterStatus range (some []) = [] ∧
    filteredEvents p day nameCmp now searchQuery filterStatus range sortBy
      (some []) = [] := by
  have hempty :
      filteredNoSort p day now searchQuery filterStatus range (some []) = [] := by
    unfold filteredNoSort applyRange applyStatus applySearch
    rcases range with ⟨rf, rt⟩
    cases rf <;> cases rt <;> split_ifs <;> simp
  refine ⟨?_, ?_, rfl, rfl, hempty, ?_⟩
  · rcases range with ⟨rf, rt⟩
    cases rf <;> cases rt <;>
      simp [mem_applyRange, rangePass, isAfterParsed_iff, isBeforeParsed_iff,
        and_assoc]
  · simp [filteredNoSort, mem_applyRange, mem_applyStatus, mem_applySearch,
      and_assoc]
  · simp [filteredEvents, hempty, jsSort]

/-- C7 witness: the theorem applied at a concrete range and event. -/
theorem range_filter_correct_witness :
    filteredNoSort pW dayW 0 "" "all" ⟨some 0, some 300⟩ none = [] ∧
    evYoga ∈ applyRange pW ⟨some 0, some 300⟩ [evYoga] := by
  have h := range_filter_correct pW dayW strCmp 0 "" "all" "date-asc"
    ⟨some 0, some 300⟩ [evYoga] [evYoga] evYoga
  refine ⟨h.2.2.1, h.1.mpr ⟨by decide, ?_, ?_⟩⟩
  · intro lo hlo
    cases hlo
    exact ⟨100, by decide, by decide⟩
  · intro hi hhi
    cases hhi
    exact ⟨100, by decide, by decide⟩

/-! ### Properties of the grouping record -/

theorem lookup_groupInsert_self (k : String) (e : EventPrimitives)
    (g : List (String × List EventPrimitives)) :
    (groupInsert k e g).lookup k = some (((g.lookup k).getD []) ++ [e]) := by
  induction g with
  | nil => simp [groupInsert, List.lookup]
  | cons kv rest ih =>
    obtain ⟨k2, es⟩ := kv
    by_cases h : k2 = k
    · subst h
      simp [groupInsert, List.lookup]
    · have hne : (k == k2) = false := by
        simp [Ne.symm h]
      simp [groupInsert, h, List.lookup, hne, ih]

theorem lookup_groupInsert_ne {k k2 : String} (h : k2 ≠ k)
    (e : EventPrimitives) (g : List (String × List EventPrimitives)) :
    (groupInsert k e g).lookup k2 = g.lookup k2 := by
  have hne0 : (k2 == k) = false := by
    simp [h]
  induction g with
  | nil => simp [groupInsert, List.lookup, hne0]
  | cons kv rest ih =>
    obtain ⟨k3, es⟩ := kv
    by_cases h3 : k3 = k
    · subst h3
      simp [groupInsert, List.lookup, hne0]
    · by_cases h2 : k2 = k3
      · subst h2
        simp [groupInsert, h3, List.lookup]
      · have hne : (k2 == k3) = false := by
          simp [h2]
        simp [groupInsert, h3, List.lookup, hne, ih]

theorem keys_groupInsert (k : String) (e : EventPrimitives)
    (g : List (String × List EventPrimitives)) :
    (groupInsert k e g).map Prod.fst =
      if k ∈ g.map Prod.fst then g.map Prod.fst
      else g.map Prod.fst ++ [k] := by
  induction g with
  | nil => simp [groupInsert]
  | cons kv rest ih =>
    obtain ⟨k2, es⟩ := kv
    by_cases h : k2 = k
    · subst h
      simp [groupInsert]
    · by_cases hm : k ∈ rest.map Prod.fst <;>
        simp [groupInsert, h, ih, hm, Ne.symm h]

theorem mem_iff_lookup_of_nodup :
    ∀ {g : List (String × List EventPrimitives)},
    (g.map Prod.fst).Nodup → ∀ {k : String} {es : List EventPrimitives},
    ((k, es) ∈ g ↔ g.lookup k = some es) := by
  intro g
  induction g with
  | nil => simp [List.lookup]
  | cons kv rest ih =>
    obtain ⟨k2, es2⟩ := kv
    intro hN k es
    rw [List.map_cons, List.nodup_cons] at hN
    obtain ⟨hk2, hrest⟩ := hN
    by_cases h : k = k2
    · subst h
      simp only [List.lookup_cons, beq_self_eq_true, List.mem_cons]
      constructor
      · rintro (heq | hmem)
        · rw [Prod.mk.injEq] at heq
          rw [heq.2]
        · exact absurd (List.mem_map_of_mem Prod.fst hmem) hk2
      · intro hl
        left
        rw [Prod.mk.injEq]
        exact ⟨rfl, (Option.some.injEq _ _ ▸ hl).symm⟩
    · have hne : (k == k2) = false := by
        simp [h]
      simp [List.lookup_cons, hne, List.mem_cons, Prod.mk.injEq, h,
        ih hrest]

theorem lookup_eq_none_of_not_mem {g : List (String × List EventPrimitives)}
    {k : String} (h : k ∉ g.map Prod.fst) : g.lookup k = none := by
  induction g with
  | nil => simp [List.lookup]
  | cons kv rest ih =>
    obtain ⟨k2, es⟩ := kv
    rw [List.map_cons, List.mem_cons] at h
    push_neg at h
    have hne : (k == k2) = false := by
      simp [h.1]
    simp [List.lookup_cons, hne, ih h.2]

/-- Running the forEach loop from an accumulator whose buckets are exactly
the day-partition of an already-processed prefix extends that partition by
the processed list. -/
theorem groupFold_spec (p : String → Option Int) (day : Int → String) :
    ∀ (l pre : List EventPrimitives)
      (acc g : List (String × List EventPrimitives)),
    groupFold p day acc l = Except.ok g →
    (acc.map Prod.fst).Nodup →
    (∀ k, (acc.lookup k).getD [] =
      pre.filter (fun e => dayKey p day e = some k)) →
    ((g.map Prod.fst).Nodup ∧
     (∀ k, (g.lookup k).getD [] =
       (pre ++ l).filter (fun e => dayKey p day e = some k)) ∧
     ∀ e ∈ l, (p e.duration.startAt).isSome) := by
  intro l
  induction l with
  | nil =>
    intro pre acc g hfold hN hB
    rw [groupFold] at hfold
    cases hfold
    simpa using ⟨hN, hB⟩
  | cons e l ih =>
    intro pre acc g hfold hN hB
    cases hpe : p e.duration.startAt with
    | none =>
      rw [groupFold, hpe] at hfold
      cases hfold
    | some t =>
      rw [groupFold, hpe] at hfold
      have hN2 : ((groupInsert (day t) e acc).map Prod.fst).Nodup := by
        rw [keys_groupInsert]
        by_cases hm : day t ∈ acc.map Prod.fst
        · simpa [hm] using hN
        · simp [hm, List.nodup_append, hN]
      have hB2 : ∀ k, ((groupInsert (day t) e acc).lookup k).getD [] =
          (pre ++ [e]).filter (fun e2 => dayKey p day e2 = some k) := by
        intro k
        by_cases hk : k = day t
        · subst hk
          rw [lookup_groupInsert_self]
          simp [List.filter_append, hB, dayKey, hpe]
        · rw [lookup_groupInsert_ne hk, hB]
          have : day t ≠ k := Ne.symm hk
          simp [List.filter_append, dayKey, hpe, this]
      have hres := ih (pre ++ [e]) (groupInsert (day t) e acc) g hfold hN2 hB2
      refine ⟨hres.1, ?_, ?_⟩
      · intro k
        have h2 := hres.2.1 k
        simpa [List.append_assoc] using h2
      · intro e2 he2
        rcases List.mem_cons.mp he2 with rfl | he2
        · simp [hpe]
        · exact hres.2.2 e2 he2

/-- Partitioning a collection by a key function over a duplicate-free key
list covering every element is a permutation of the collection. -/
theorem partition_perm (f : EventPrimitives → Option String) :
    ∀ (m : List EventPrimitives) (ks : List String), ks.Nodup →
    (∀ e ∈ m, ∃ k ∈ ks, f e = some k) →
    (ks.flatMap (fun k => m.filter (fun e => f e = some k))).Perm m := by
  intro m
  induction m with
  | nil =>
    intro ks _ _
    simp
  | cons e m ih =>
    intro ks hN hcov
    obtain ⟨k0, hk0, hfe⟩ := hcov e (List.mem_cons_self e m)
    obtain ⟨ks1, ks2, rfl⟩ := List.append_of_mem hk0
    rw [List.nodup_append] at hN
    obtain ⟨hN1, hN2, hdisj⟩ := hN
    have hk0n1 : k0 ∉ ks1 := fun hmem =>
      hdisj hmem (List.mem_cons_self k0 ks2)
    have hk0n2 : k0 ∉ ks2 := (List.nodup_cons.mp hN2).1
    have hcongr1 : ks1.flatMap
        (fun k => (e :: m).filter (fun e2 => f e2 = some k)) =
        ks1.flatMap (fun k => m.filter (fun e2 => f e2 = some k)) :=
      List.flatMap_congr (fun k hk => by
        have hne : k0 ≠ k := fun h => hk0n1 (h ▸ hk)
        simp [List.filter_cons, hfe, hne])
    have hcongr2 : ks2.flatMap
        (fun k => (e :: m).filter (fun e2 => f e2 = some k)) =
        ks2.flatMap (fun k => m.filter (fun e2 => f e2 = some k)) :=
      List.flatMap_congr (fun k hk => by
        have hne : k0 ≠ k := fun h => hk0n2 (h ▸ hk)
        simp [List.filter_cons, hfe, hne])
    have hchunk : (e :: m).filter (fun e2 => f e2 = some k0) =
        e :: m.filter (fun e2 => f e2 = some k0) := by
      simp [List.filter_cons, hfe]
    have hNall : (ks1 ++ k0 :: ks2).Nodup := by
      rw [List.nodup_append]
      exact ⟨hN1, hN2, hdisj⟩
    have hih := ih (ks1 ++ k0 :: ks2) hNall
      (fun e2 he2 => hcov e2 (List.mem_cons_of_mem e he2))
    rw [List.flatMap_append, List.flatMap_cons] at hih ⊢
    rw [hcongr1, hcongr2, hchunk]
    simp only [List.cons_append]
    exact List.perm_middle.trans (hih.cons e)

/-- A duplicate-free grouping record flattens to the concatenation of its
buckets read off through `lookup`. -/
theorem flatMap_snd_eq :
    ∀ (g : List (String × List EventPrimitives)),
    (g.map Prod.fst).Nodup →
    g.flatMap Prod.snd =
      (g.map Prod.fst).flatMap (fun k => (g.lookup k).getD []) := by
  intro g
  induction g with
  | nil => simp
  | cons kv rest ih =>
    obtain ⟨k, es⟩ := kv
    intro hN
    rw [List.map_cons, List.nodup_cons] at hN
    obtain ⟨hk, hrest⟩ := hN
    simp only [List.flatMap_cons, List.map_cons]
    congr 1
    · simp [List.lookup_cons]
    · rw [ih hrest]
      refine (List.flatMap_congr ?_)
      intro k2 hk2
      have hne : (k2 == k) = false := by
        have : k2 ≠ k := fun h => hk (h ▸ hk2)
        simp [this]
      simp [List.lookup_cons, hne]

/-- C4: the group stage partitions the collection into buckets keyed by
the local-day string of each event's startAt, each bucket being exactly the
order-preserving restriction of the collection to that day; the union of
all buckets is a permutation of the collection (nothing dropped or
duplicated, keys duplicate-free); an empty input produces an empty
mapping. -/
theorem group_stage_correct (p : String → Option Int) (day : Int → String)
    (l : List EventPrimitives) (g : List (String × List EventPrimitives))
    (hg : groupedEvents p day l = Except.ok g) :
    groupedEvents p day [] = Except.ok [] ∧
    (g.map Prod.fst).Nodup ∧
    (∀ k es, (k, es) ∈ g →
      es = l.filter (fun e => dayKey p day e = some k)) ∧
    (g.flatMap Prod.snd).Perm l := by
  have hs := groupFold_spec p day l [] [] g hg (by simp)
    (by intro k; simp [List.lookup])
  simp only [List.nil_append] at hs
  obtain ⟨hN, hB, hP⟩ := hs
  refine ⟨rfl, hN, ?_, ?_⟩
  · intro k es hmem
    have hl := (mem_iff_lookup_of_nodup hN).mp hmem
    have hBk := hB k
    rw [hl] at hBk
    simpa using hBk
  · rw [flatMap_snd_eq g hN]
    have hco : ∀ e ∈ l, ∃ k ∈ g.map Prod.fst, dayKey p day e = some k := by
      intro e he
      obtain ⟨t, ht⟩ := Option.isSome_iff_exists.mp (hP e he)
      refine ⟨day t, ?_, by simp [dayKey, ht]⟩
      by_contra hnk
      have hnone := lookup_eq_none_of_not_mem hnk
      have hBk := hB (day t)
      rw [hnone] at hBk
      have : e ∈ l.filter (fun e2 => dayKey p day e2 = some (day t)) :=
        List.mem_filter.mpr ⟨he, by simp [dayKey, ht]⟩
      rw [← hBk] at this
      simp at this
    rw [List.flatMap_congr (fun k _ => hB k)]
    exact partition_perm (dayKey p day) l (g.map Prod.fst) hN hco

/-- Fixture: event starting on the later witness day. -/
def evB : EventPrimitives :=
  { id := "e2", name := "Taller", description := "d", location := "x"
    duration := { startAt := "300", endAt := "300" }
    price := { amount := 10, currency := "MXN" } }

/-- C4 witness: the theorem applied to a concrete two-day collection. -/
theorem group_stage_correct_witness :
    groupedEvents pW dayW [evYoga, evB] =
      Except.ok [("2024-03-07", [evYoga]), ("2024-03-08", [evB])] ∧
    (([("2024-03-07", [evYoga]), ("2024-03-08", [evB])] :
        List (String × List EventPrimitives)).flatMap Prod.snd).Perm
      [evYoga, evB] := by
  have hg : groupedEvents pW dayW [evYoga, evB] =
      Except.ok [("2024-03-07", [evYoga]), ("2024-03-08", [evB])] := rfl
  exact ⟨hg, (group_stage_correct pW dayW [evYoga, evB] _ hg).2.2.2⟩

/-! ### The lexicographic string order used by the key sort -/

theorem ltCharList_trichotomy :
    ∀ as bs : List Char,
    ltCharList as bs = true ∨ as = bs ∨ ltCharList bs as = true := by
  intro as
  induction as with
  | nil =>
    intro bs
    cases bs with
    | nil => exact Or.inr (Or.inl rfl)
    | cons b bs => exact Or.inl rfl
  | cons a as ih =>
    intro bs
    cases bs with
    | nil => exact Or.inr (Or.inr rfl)
    | cons b bs =>
      rcases lt_trichotomy a b with hab | hab | hab
      · exact Or.inl (by simp [ltCharList, hab])
      · subst hab
        rcases ih bs with h | h | h
        · exact Or.inl (by simp [ltCharList, h])
        · exact Or.inr (Or.inl (by rw [h]))
        · exact Or.inr (Or.inr (by simp [ltCharList, h]))
      · exact Or.inr (Or.inr (by simp [ltCharList, hab]))

theorem ltCharList_cons_iff {x y : Char} {xs ys : List Char} :
    ltCharList (x :: xs) (y :: ys) = true ↔
      x < y ∨ (x = y ∧ ltCharList xs ys = true) := by
  rw [ltCharList]
  by_cases h1 : x < y
  · simp [h1]
  · by_cases h2 : y < x
    · simp only [if_neg h1, if_pos h2]
      constructor
      · intro h
        exact absurd h (by simp)
      · rintro (h | ⟨rfl, h⟩)
        · exact absurd h h1
        · exact absurd h2 (lt_irrefl _)
    · have he : x = y := le_antisymm (not_lt.mp h2) (not_lt.mp h1)
      simp [h1, h2, he]

theorem ltCharList_trans :
    ∀ as bs cs : List Char,
    ltCharList as bs = true → ltCharList bs cs = true →
    ltCharList as cs = true := by
  intro as
  induction as with
  | nil =>
    intro bs cs h1 h2
    cases bs with
    | nil => exact h2
    | cons b bs =>
      cases cs with
      | nil => simp [ltCharList] at h2
      | cons c cs => rfl
  | cons a as ih =>
    intro bs cs h1 h2
    cases bs with
    | nil => simp [ltCharList] at h1
    | cons b bs =>
      cases cs with
      | nil => simp [ltCharList] at h2
      | cons c cs =>
        rw [ltCharList_cons_iff] at h1 h2 ⊢
        rcases h1 with h1 | ⟨rfl, h1⟩
        · rcases h2 with h2 | ⟨rfl, h2⟩
          · exact Or.inl (lt_trans h1 h2)
          · exact Or.inl h1
        · rcases h2 with h2 | ⟨rfl, h2⟩
          · exact Or.inl h2
          · exact Or.inr ⟨rfl, ih bs cs h1 h2⟩

theorem strCmp_le_iff {a b : String} :
    strCmp a b ≤ 0 ↔ (strLt a b = true ∨ a = b) := by
  unfold strCmp
  by_cases h1 : strLt a b
  · simp [h1]
  · by_cases h2 : a = b
    · subst h2
      simp [h1]
    · simp [h1, h2]

theorem strCmp_total (a b : String) : strCmp a b ≤ 0 ∨ strCmp b a ≤ 0 := by
  rcases ltCharList_trichotomy a.toList b.toList with h | h | h
  · exact Or.inl (strCmp_le_iff.mpr (Or.inl h))
  · have heq : a = b := by
      cases a
      cases b
      exact congrArg String.mk (by simpa [String.toList] using h)
    exact Or.inl (strCmp_le_iff.mpr (Or.inr heq))
  · exact Or.inr (strCmp_le_iff.mpr (Or.inl h))

theorem strCmp_trans {a b c : String}
    (h1 : strCmp a b ≤ 0) (h2 : strCmp b c ≤ 0) : strCmp a c ≤ 0 := by
  rcases strCmp_le_iff.mp h1 with h1 | h1
  · rcases strCmp_le_iff.mp h2 with h2 | h2
    · exact strCmp_le_iff.mpr (Or.inl (ltCharList_trans _ _ _ h1 h2))
    · subst h2
      exact strCmp_le_iff.mpr (Or.inl h1)
  · subst h1
    exact h2

theorem lookup_isSome_of_mem_keys {g : List (String × List EventPrimitives)}
    (hN : (g.map Prod.fst).Nodup) {k : String}
    (hk : k ∈ g.map Prod.fst) : ∃ es, g.lookup k = some es := by
  rw [List.mem_map] at hk
  obtain ⟨⟨k2, es⟩, hmem, heq⟩ := hk
  cases heq
  exact ⟨es, (mem_iff_lookup_of_nodup hN).mp hmem⟩

/-- C5: the paginate stage selects exactly the day-keys in the slice
`[(page-1)*10, page*10)` of the lexicographically sorted key list
(the sorted key list being an ordered permutation of the grouping's keys),
each selected key keeping its bucket from the group stage, and the total
page count is the ceiling of the number of day-keys divided by 10
(characterized by the two bounding inequalities). -/
theorem paginate_stage_correct (g : List (String × List EventPrimitives))
    (page : Nat) (hpage : 1 ≤ page) :
    (paginatedGroupedEvents g page).map Prod.fst =
      ((sortedKeys g).drop ((page - 1) * eventsPerPage)).take eventsPerPage ∧
    (sortedKeys g).Perm (g.map Prod.fst) ∧
    (sortedKeys g).Pairwise (fun a b => strLt a b = true ∨ a = b) ∧
    (∀ k es, (k, es) ∈ paginatedGroupedEvents g page →
      es = (g.lookup k).getD [] ∧ k ∈ g.map Prod.fst ∧
      ((g.map Prod.fst).Nodup → (k, es) ∈ g)) ∧
    (g.length ≤ totalPages g * eventsPerPage ∧
     totalPages g * eventsPerPage < g.length + eventsPerPage) := by
  have hmapid : ∀ ks : List String,
      (ks.map (fun k => (k, (g.lookup k).getD []))).map Prod.fst = ks := by
    intro ks
    induction ks with
    | nil => rfl
    | cons k ks ih => simp [ih]
  refine ⟨?_, jsSort_perm _ _, ?_, ?_, ?_⟩
  · rw [paginatedGroupedEvents, hmapid]
    rfl
  · exact (jsSort_pairwise (fun a _ b _ => strCmp_total a b)
      (fun a _ b _ c _ h1 h2 => strCmp_trans h1 h2)).imp
      (fun h => strCmp_le_iff.mp h)
  · intro k es hmem
    rw [paginatedGroupedEvents, List.mem_map] at hmem
    obtain ⟨k2, hk2, heq⟩ := hmem
    cases heq
    have hks : k ∈ g.map Prod.fst := by
      rw [← (jsSort_perm strCmp (g.map Prod.fst)).mem_iff]
      exact List.mem_of_mem_drop (List.mem_of_mem_take hk2)
    refine ⟨rfl, hks, ?_⟩
    intro hN
    obtain ⟨es0, hes0⟩ := lookup_isSome_of_mem_keys hN hks
    rw [hes0]
    exact (mem_iff_lookup_of_nodup hN).mpr (by simp [hes0])
  · unfold totalPages eventsPerPage
    omega

/-- C5 witness: two events on the same concrete day group under one key
and give exactly one page. -/
theorem paginate_stage_correct_witness :
    groupedEvents pW dayW [evYoga, ev100] =
      Except.ok [("2024-03-07", [evYoga, ev100])] ∧
    totalPages [("2024-03-07", [evYoga, ev100])] = 1 ∧
    (paginatedGroupedEvents [("2024-03-07", [evYoga, ev100])] 1).map Prod.fst
      = ((sortedKeys [("2024-03-07", [evYoga, ev100])]).drop 0).take
          eventsPerPage := by
  have h := paginate_stage_correct [("2024-03-07", [evYoga, ev100])] 1
    (le_refl 1)
  refine ⟨rfl, rfl, ?_⟩
  simpa using h.1

/-- Slicing a list into consecutive 10-element chunks and concatenating
the ceil(n/10) chunks gives the list back. -/
theorem chunks_flatMap {α : Type} :
    ∀ (n : Nat) (ks : List α), ks.length = n →
    (List.range ((n + 9) / 10)).flatMap (fun i => (ks.drop (i * 10)).take 10)
      = ks := by
  intro n
  induction n using Nat.strong_induction_on with
  | _ n ih =>
    intro ks hlen
    cases ks with
    | nil =>
      have h0 : n = 0 := by simpa using hlen.symm
      subst h0
      rfl
    | cons x xs =>
      have hn1 : 1 ≤ n := by
        rw [← hlen]
        simp
      have h10 : (n + 9) / 10 = ((n - 10) + 9) / 10 + 1 := by omega
      rw [h10, List.range_succ_eq_map, List.flatMap_cons, List.flatMap_map]
      have hdl : ((x :: xs).drop 10).length = n - 10 := by
        rw [List.length_drop, hlen]
      have hrec := ih (n - 10) (by omega) ((x :: xs).drop 10) hdl
      have hcongr : ∀ i : Nat, ((x :: xs).drop (Nat.succ i * 10)).take 10
          = (((x :: xs).drop 10).drop (i * 10)).take 10 := by
        intro i
        rw [List.drop_drop]
        congr 2
        omega
      rw [List.flatMap_congr (fun i _ => (hcongr i).symm)] at hrec
      simp only [Nat.zero_mul, List.drop_zero]
      rw [hrec, List.take_append_drop]

/-- Two 10-element slices of a duplicate-free list taken at offsets at
least 10 apart share no element. -/
theorem take_drop_disjoint {α : Type} {ks : List α} (hN : ks.Nodup)
    {i j : Nat} (hij : i + 10 ≤ j) {x : α}
    (hx1 : x ∈ (ks.drop i).take 10) (hx2 : x ∈ (ks.drop j).take 10) :
    False := by
  have hB : x ∈ ks.drop (i + 10) := by
    have hj : ks.drop j = (ks.drop (i + 10)).drop (j - (i + 10)) := by
      rw [List.drop_drop]
      congr 1
      omega
    exact List.mem_of_mem_drop (hj ▸ List.mem_of_mem_take hx2)
  have hsplit : ks.drop i = (ks.drop i).take 10 ++ ks.drop (i + 10) := by
    conv_lhs => rw [← List.take_append_drop 10 (ks.drop i)]
    rw [List.drop_drop]
  have hnd : (ks.drop i).Nodup := hN.sublist (List.drop_sublist i ks)
  rw [hsplit, List.nodup_append] at hnd
  exact hnd.2.2 hx1 hB

/-- C6: the union of the events of all pages 1..totalPages is a
permutation of the full grouped collection, and the event sets of two
distinct pages are disjoint. -/
theorem pagination_cover_disjoint (p : String → Option Int)
    (day : Int → String) (l : List EventPrimitives)
    (g : List (String × List EventPrimitives))
    (hg : groupedEvents p day l = Except.ok g) :
    ((List.range (totalPages g)).flatMap
      (fun i => (paginatedGroupedEvents g (i + 1)).flatMap Prod.snd)).Perm
      (g.flatMap Prod.snd) ∧
    (∀ q r : Nat, 1 ≤ q → 1 ≤ r → q ≠ r → q ≤ totalPages g →
      r ≤ totalPages g → ∀ e : EventPrimitives,
      e ∈ (paginatedGroupedEvents g q).flatMap Prod.snd →
      e ∈ (paginatedGroupedEvents g r).flatMap Prod.snd → False) := by
  have hs := groupFold_spec p day l [] [] g hg (by simp)
    (by intro k; simp [List.lookup])
  simp only [List.nil_append] at hs
  obtain ⟨hN, hB, hP⟩ := hs
  have hpag : ∀ pg : Nat, (paginatedGroupedEvents g pg).flatMap Prod.snd
      = (pageKeys g pg).flatMap (fun k => (g.lookup k).getD []) := by
    intro pg
    rw [paginatedGroupedEvents, List.flatMap_map]
  have hchunk : ∀ i : Nat,
      pageKeys g (i + 1) = ((sortedKeys g).drop (i * 10)).take 10 := by
    intro i
    rw [pageKeys]
    simp [eventsPerPage]
  have hlen : (sortedKeys g).length = g.length := by
    rw [sortedKeys, (jsSort_perm strCmp (g.map Prod.fst)).length_eq,
      List.length_map]
  constructor
  · have hcover :
        ((List.range (totalPages g)).flatMap
          (fun i => (paginatedGroupedEvents g (i + 1)).flatMap Prod.snd))
        = (sortedKeys g).flatMap (fun k => (g.lookup k).getD []) := by
      have h1 : ∀ i ∈ List.range (totalPages g),
          (paginatedGroupedEvents g (i + 1)).flatMap Prod.snd
          = (((sortedKeys g).drop (i * 10)).take 10).flatMap
              (fun k => (g.lookup k).getD []) := by
        intro i _
        rw [hpag (i + 1), hchunk i]
      rw [List.flatMap_congr h1, ← List.flatMap_assoc]
      congr 1
      have h2 := chunks_flatMap (sortedKeys g).length (sortedKeys g) rfl
      have h3 : totalPages g = ((sortedKeys g).length + 9) / 10 := by
        rw [hlen]
        rfl
      rw [h3]
      exact h2
    rw [hcover, flatMap_snd_eq g hN]
    exact (jsSort_perm strCmp (g.map Prod.fst)).flatMap_right _
  · have hkey : ∀ (e : EventPrimitives) (k : String),
        e ∈ (g.lookup k).getD [] → dayKey p day e = some k := by
      intro e k he
      rw [hB k] at he
      simpa using (List.mem_filter.mp he).2
    have hdisj2 : ∀ q r : Nat, 1 ≤ q → q < r → ∀ e : EventPrimitives,
        e ∈ (paginatedGroupedEvents g q).flatMap Prod.snd →
        e ∈ (paginatedGroupedEvents g r).flatMap Prod.snd → False := by
      intro q r hq hqr e he1 he2
      rw [hpag q, List.mem_flatMap] at he1
      rw [hpag r, List.mem_flatMap] at he2
      obtain ⟨k1, hk1, hek1⟩ := he1
      obtain ⟨k2, hk2, hek2⟩ := he2
      have hkk : k1 = k2 :=
        Option.some.inj ((hkey e k1 hek1).symm.trans (hkey e k2 hek2))
      subst hkk
      have hNsorted : (sortedKeys g).Nodup :=
        ((jsSort_perm strCmp (g.map Prod.fst)).nodup_iff).mpr hN
      have hq10 : (q - 1) * 10 + 10 ≤ (r - 1) * 10 := by omega
      rw [pageKeys] at hk1 hk2
      exact take_drop_disjoint hNsorted hq10 hk1 hk2
    intro q r hq hr hne hqtp hrtp e he1 he2
    rcases lt_or_gt_of_ne hne with h | h
    · exact hdisj2 q r hq h e he1 he2
    · exact hdisj2 r q hr h e he2 he1

/-- C6 witness: the theorem applied to the concrete two-day grouping. -/
theorem pagination_cover_disjoint_witness :
    ((List.range
      (totalPages [("2024-03-07", [evYoga]), ("2024-03-08", [evB])])).flatMap
      (fun i => (paginatedGroupedEvents
        [("2024-03-07", [evYoga]), ("2024-03-08", [evB])] (i + 1)).flatMap
        Prod.snd)).Perm
      (([("2024-03-07", [evYoga]), ("2024-03-08", [evB])] :
        List (String × List EventPrimitives)).flatMap Prod.snd) :=
  (pagination_cover_disjoint pW dayW [evYoga, evB]
    [("2024-03-07", [evYoga]), ("2024-03-08", [evB])] rfl).1

/-- Fixture: event with a malformed startAt/endAt timestamp. -/
def evBad : EventPrimitives :=
  { id := "e3", name := "Charla", description := "d", location := "x"
    duration := { startAt := "garbage", endAt := "garbage" }
    price := { amount := 1, currency := "MXN" } }

/-- C8 counterexample: an event with a malformed startAt passes the filter
stage under status `all` and then makes the group stage raise
`RangeError: Invalid time value` (date-fns `format` throws on an invalid
date), so the pipeline is not raise-free on malformed timestamps. -/
theorem pipeline_raise_cex :
    filteredEvents pW dayW strCmp 0 "" "all" ⟨none, none⟩ "date-asc"
      (some [evBad]) = [evBad] ∧
    groupedEvents pW dayW
      (filteredEvents pW dayW strCmp 0 "" "all" ⟨none, none⟩ "date-asc"
        (some [evBad])) = Except.error "Invalid time value" :=
  ⟨rfl, rfl⟩

/-- C8 (amended): the filter and sort stages return a value on every input
and an event with a malformed timestamp is excluded from every filter that
depends on that field (upcoming/today/date-range for startAt, past for
endAt); the group stage however returns a value iff every event reaching
it has a parseable startAt, and raises otherwise. -/
theorem pipeline_error_behavior (p : String → Option Int)
    (day : Int → String) (now : Int) (l : List EventPrimitives)
    (e : EventPrimitives) :
    (p e.duration.startAt = none →
      statusPass p day now "upcoming" e = false ∧
      statusPass p day now "today" e = false ∧
      ∀ (lo : Int) (rt : Option Int), rangePass p ⟨some lo, rt⟩ e = false) ∧
    (p e.duration.endAt = none → statusPass p day now "past" e = false) ∧
    ((∃ g, groupedEvents p day l = Except.ok g) ↔
      ∀ e2 ∈ l, (p e2.duration.startAt).isSome) := by
  refine ⟨?_, ?_, ?_⟩
  · intro h
    refine ⟨?_, ?_, ?_⟩
    · simp [statusPass, isAfterParsed, h]
    · simp [statusPass, isTodayParsed, h]
    · intro lo rt
      simp [rangePass, isAfterParsed, h]
  · intro h
    simp [statusPass, isBeforeParsed, h]
  · have haux : ∀ (m : List EventPrimitives)
        (acc : List (String × List EventPrimitives)),
        (∃ g, groupFold p day acc m = Except.ok g) ↔
        ∀ e2 ∈ m, (p e2.duration.startAt).isSome := by
      intro m
      induction m with
      | nil =>
        intro acc
        simp [groupFold]
      | cons e2 m ih =>
        intro acc
        cases hpe : p e2.duration.startAt with
        | none => simp [groupFold, hpe]
        | some t => simp [groupFold, hpe, ih]
    exact haux l []

/-- C8 witness: the amended theorem applied at concrete inputs. -/
theorem pipeline_error_behavior_witness :
    statusPass pW dayW 0 "upcoming" evBad = false ∧
    ((∃ g, groupedEvents pW dayW [evYoga] = Except.ok g) ↔
      ∀ e2 ∈ [evYoga], (pW e2.duration.startAt).isSome) := by
  have h1 := pipeline_error_behavior pW dayW 0 [evYoga] evBad
  exact ⟨(h1.1 rfl).1, h1.2.2⟩

/-! ### Heap model of the aliasing behavior (C9)

JavaScript arrays are heap references.  `filtered = [...events]` allocates
a fresh array, every applied `filter` allocates a fresh array, and `sort`
mutates its receiver in place.  The heap is a list of arrays and a
reference is an index into it. -/

/-- Read the array at reference `r` (empty for a dangling reference). -/
def readH (h : List (List EventPrimitives)) (r : Nat) :
    List EventPrimitives :=
  h.getD r []

/-- Allocate a fresh array holding `v`; returns the new heap and the fresh
reference. -/
def allocH (h : List (List EventPrimitives)) (v : List EventPrimitives) :
    List (List EventPrimitives) × Nat :=
  (h ++ [v], h.length)

/-- Overwrite the array at reference `r` in place. -/
def writeH (h : List (List EventPrimitives)) (r : Nat)
    (v : List EventPrimitives) : List (List EventPrimitives) :=
  h.set r v

/-- The conditional search filter as an optional transformation: applied
(allocating a new array) only when the query is truthy. -/
def searchStep (query : String) :
    Option (List EventPrimitives → List EventPrimitives) :=
  if query = "" then none else some (fun l => l.filter (matchesSearch query))

/-- The conditional status filter as an optional transformation. -/
def statusStep (p : String → Option Int) (day : Int → String) (now : Int)
    (filterStatus : String) :
    Option (List EventPrimitives → List EventPrimitives) :=
  if filterStatus = "upcoming" then
    some (fun l => l.filter (fun e => isAfterParsed p e.duration.startAt now))
  else if filterStatus = "past" then
    some (fun l => l.filter (fun e => isBeforeParsed p e.duration.endAt now))
  else if filterStatus = "today" then
    some (fun l => l.filter (fun e => isTodayParsed p day e.duration.startAt now))
  else none

/-- The conditional lower-bound filter as an optional transformation. -/
def rangeFromStep (p : String → Option Int) (range : DateRange) :
    Option (List EventPrimitives → List EventPrimitives) :=
  range.fromDate.map (fun lo =>
    fun l => l.filter (fun e => isAfterParsed p e.duration.startAt lo))

/-- The conditional upper-bound filter as an optional transformation. -/
def rangeToStep (p : String → Option Int) (range : DateRange) :
    Option (List EventPrimitives → List EventPrimitives) :=
  range.toDate.map (fun hi =>
    fun l => l.filter (fun e => isBeforeParsed p e.duration.startAt hi))

/-- Run one optional filter on the heap: a skipped filter keeps the current
working reference, an applied filter allocates a fresh array. -/
def applyStepH (s : List (List EventPrimitives) × Nat) :
    Option (List EventPrimitives → List EventPrimitives) →
    List (List EventPrimitives) × Nat
  | none => s
  | some f => allocH s.1 (f (readH s.1 s.2))

/-- The value an optional filter computes. -/
def stepVal (v : List EventPrimitives) :
    Option (List EventPrimitives → List EventPrimitives) →
    List EventPrimitives
  | none => v
  | some f => f v

/-- Heap-level run of the `filteredEvents` memo over the collection at
reference `src`: spread-copy, the four conditional filters, then an
in-place sort of the working array. -/
def runFilteredEvents (h : List (List EventPrimitives)) (src : Nat)
    (p : String → Option Int) (day : Int → String)
    (nameCmp : String → String → Int) (now : Int)
    (searchQuery filterStatus : String) (range : DateRange)
    (sortBy : String) : List (List EventPrimitives) × Nat :=
  let s4 := applyStepH (applyStepH (applyStepH (applyStepH
    (allocH h (readH h src))
    (searchStep searchQuery))
    (statusStep p day now filterStatus))
    (rangeFromStep p range))
    (rangeToStep p range)
  (writeH s4.1 s4.2 (jsSort (comparator p nameCmp sortBy)
    (readH s4.1 s4.2)), s4.2)

theorem readH_append_lt {h : List (List EventPrimitives)}
    {v : List EventPrimitives} {r : Nat} (hr : r < h.length) :
    readH (h ++ [v]) r = readH h r := by
  unfold readH
  exact List.getD_append h [v] [] r hr

theorem readH_alloc_self {h : List (List EventPrimitives)}
    {v : List EventPrimitives} : readH (h ++ [v]) h.length = v := by
  unfold readH
  rw [List.getD_eq_getElem?_getD, List.getElem?_append]
  simp

theorem readH_set_ne {h : List (List EventPrimitives)} {r r2 : Nat}
    {v : List EventPrimitives} (hne : r ≠ r2) :
    readH (writeH h r v) r2 = readH h r2 := by
  unfold readH writeH
  rw [List.getD_eq_getElem?_getD, List.getElem?_set_ne hne,
    ← List.getD_eq_getElem?_getD]

theorem readH_set_self {h : List (List EventPrimitives)} {r : Nat}
    {v : List EventPrimitives} (hr : r < h.length) :
    readH (writeH h r v) r = v := by
  unfold readH writeH
  rw [List.getD_eq_getElem?_getD, List.getElem?_set_self hr]
  rfl

/-- Invariant carried across the heap steps: the working reference is a
strictly later allocation than `src`, both are live, `src` still holds the
original collection and the working reference holds the current value. -/
def HeapInv (src : Nat) (orig val : List EventPrimitives)
    (s : List (List EventPrimitives) × Nat) : Prop :=
  src < s.2 ∧ s.2 < s.1.length ∧ readH s.1 src = orig ∧ readH s.1 s.2 = val

theorem applyStepH_inv {src : Nat} {orig val : List EventPrimitives}
    {s : List (List EventPrimitives) × Nat} (hs : HeapInv src orig val s)
    (o : Option (List EventPrimitives → List EventPrimitives)) :
    HeapInv src orig (stepVal val o) (applyStepH s o) := by
  obtain ⟨h1, h2, h3, h4⟩ := hs
  cases o with
  | none => exact ⟨h1, h2, h3, h4⟩
  | some f =>
    obtain ⟨hh, r⟩ := s
    refine ⟨lt_trans h1 h2, by simp [applyStepH, allocH], ?_, ?_⟩
    · show readH (hh ++ [f (readH hh r)]) src = orig
      rw [readH_append_lt (lt_trans h1 h2)]
      exact h3
    · show readH (hh ++ [f (readH hh r)]) hh.length = f val
      rw [readH_alloc_self, h4]

theorem stepVal_search (query : String) (l : List EventPrimitives) :
    stepVal l (searchStep query) = applySearch query l := by
  unfold searchStep applySearch
  by_cases h : query = "" <;> simp [h, stepVal]

theorem stepVal_status (p : String → Option Int) (day : Int → String)
    (now : Int) (filterStatus : String) (l : List EventPrimitives) :
    stepVal l (statusStep p day now filterStatus) =
      applyStatus p day now filterStatus l := by
  unfold statusStep applyStatus
  split_ifs <;> simp [stepVal]

theorem stepVal_range (p : String → Option Int) (range : DateRange)
    (l : List EventPrimitives) :
    stepVal (stepVal l (rangeFromStep p range)) (rangeToStep p range) =
      applyRange p range l := by
  rcases range with ⟨rf, rt⟩
  cases rf <;> cases rt <;>
    simp [rangeFromStep, rangeToStep, stepVal, applyRange]

/-- C9: running the pipeline on the heap leaves the array at the source
reference unchanged, and the working reference ends up holding exactly the
value of the pure `filteredEvents` of the original collection. -/
theorem pipeline_preserves_source (h : List (List EventPrimitives))
    (src : Nat) (p : String → Option Int) (day : Int → String)
    (nameCmp : String → String → Int) (now : Int)
    (searchQuery filterStatus : String) (range : DateRange)
    (sortBy : String) (hsrc : src < h.length) :
    readH (runFilteredEvents h src p day nameCmp now searchQuery
        filterStatus range sortBy).1 src = readH h src ∧
    readH (runFilteredEvents h src p day nameCmp now searchQuery
        filterStatus range sortBy).1
      (runFilteredEvents h src p day nameCmp now searchQuery
        filterStatus range sortBy).2
      = filteredEvents p day nameCmp now searchQuery filterStatus range
          sortBy (some (readH h src)) := by
  have I0 : HeapInv src (readH h src) (readH h src)
      (allocH h (readH h src)) := by
    refine ⟨hsrc, by simp [allocH], ?_, ?_⟩
    · show readH (h ++ [readH h src]) src = readH h src
      exact readH_append_lt hsrc
    · show readH (h ++ [readH h src]) h.length = readH h src
      exact readH_alloc_self
  have I1 := applyStepH_inv I0 (searchStep searchQuery)
  have I2 := applyStepH_inv I1 (statusStep p day now filterStatus)
  have I3 := applyStepH_inv I2 (rangeFromStep p range)
  have I4 := applyStepH_inv I3 (rangeToStep p range)
  rw [stepVal_search] at I4
  rw [stepVal_status] at I4
  rw [stepVal_range] at I4
  obtain ⟨J1, J2, J3, J4⟩ := I4
  rw [runFilteredEvents]
  refine ⟨?_, ?_⟩
  · show readH (writeH _ _ _) src = readH h src
    rw [readH_set_ne (Nat.ne_of_gt J1)]
    exact J3
  · show readH (writeH _ _ _) _ = _
    rw [readH_set_self J2, J4]
    rfl

/-- C9 witness: the theorem applied to a concrete one-array heap. -/
theorem pipeline_preserves_source_witness :
    readH (runFilteredEvents [[evYoga, evB]] 0 pW dayW strCmp 0 "" "all"
      ⟨none, none⟩ "date-asc").1 0 = [evYoga, evB] :=
  (pipeline_preserves_source [[evYoga, evB]] 0 pW dayW strCmp 0 "" "all"
    ⟨none, none⟩ "date-asc" (by decide)).1
